import Mathlib

/-!
Verification of the Font Awesome v5 style-file generator
(`src/fontawesome5/make-fontawesome5.py`).

The script turns a mapping from icon names to icon metadata (unicode code
point and style membership) into four text blocks: a unicode-symbol mapping
list and three per-style LaTeX command lists, with style-fallback
resolution.  The definitions below are a shallow embedding of the Python
functions `make_cmdname`, `make_map`, `make_cmd`, of the `FONTS` table, and
of the generation pass in `main` (lines 194-208).  Definitions whose names
end in `Spec` are instead written from the specification's wording and are
compared against the embedded code.
-/

/-- One icon's metadata record, the value `icons[name]` of the loaded
`icons.yml` mapping: the `unicode` field (hexadecimal string) and the
`styles` field (list of style tags). -/
structure IconRecord where
  unicode : String
  styles : List String
deriving DecidableEq

/-- The `FONTS` dict of the source (lines 35-39): style tag to font family
identifier.  A lookup of a missing key raises `KeyError` in Python and is
modelled as `none`; inside `make_cmd` every lookup is guarded so the `none`
branch is never exercised there. -/
def FONTS (style : String) : Option String :=
  if style = "regular" then some "FontAwesomeRegular"
  else if style = "solid" then some "FontAwesomeSolid"
  else if style = "brands" then some "FontAwesomeBrands"
  else none

/-- The body of the character loop of `make_cmdname` (source lines 113-125):
`i` is the position of the head character in the original name and `upper`
the mutable capitalization flag.  A hyphen sets the flag and emits nothing;
any other character is emitted uppercased when the flag is set (the flag is
forced at position 0) and the flag is cleared. -/
def cmdnameStep : List Char → Nat → Bool → List Char
  | [], _, _ => []
  | c :: cs, i, upper =>
    if c = '-' then
      cmdnameStep cs (i + 1) true
    else
      let upper' := if i = 0 then true else upper
      (if upper' then c.toUpper else c) :: cmdnameStep cs (i + 1) false

/-- `make_cmdname` (source lines 112-126): derive the LaTeX command
identifier from a hyphenated icon name. -/
def make_cmdname (name : String) : String :=
  String.mk (cmdnameStep name.data 0 false)

/-- `make_map` (source lines 129-136): the unicode-symbol mapping statement
for one icon.  The Python format string is
`\expandafter\def\csname faicon@%(name)s\endcsname{\symbol{"%(symbol)s}}`
with `symbol.upper()` substituted: the double quote before the code point
is TeX hexadecimal notation and is not closed. -/
def make_map (name symbol : String) : String :=
  "\\expandafter\\def\\csname faicon@" ++ name ++ "\\endcsname\x7b\\symbol\x7b\"" ++
    String.mk (symbol.data.map Char.toUpper) ++ "\x7d\x7d"

/-- The command format string of source line 160:
`\def\fa%(cmdname)s{{\%(font)s\csname faicon@%(name)s\endcsname}}`. -/
def cmdFormat (cmdname font name : String) : String :=
  "\\def\\fa" ++ cmdname ++ "\x7b\x7b\\" ++ font ++ "\\csname faicon@" ++ name ++
    "\\endcsname\x7d\x7d"

/-- `make_cmd` (source lines 139-164): fallback dispatch on the style
(raising `ValueError` for an unknown style, modelled by `Except.error`),
then font resolution against the icon's styles, returning `none` when
neither the style nor its fallback is available.  Python's
`elif fallback in icon["styles"]` test with `fallback = None` is always
false and is modelled by the `none` branch of the inner match. -/
def make_cmd (name : String) (icon : IconRecord) (style : String) :
    Except String (Option String) :=
  let cmdname := make_cmdname name
  let fb : Except String (Option String) :=
    if style = "solid" then Except.ok (some "regular")
    else if style = "regular" then Except.ok (some "solid")
    else if style = "brands" then Except.ok none
    else Except.error ("Invalid style: " ++ style)
  match fb with
  | Except.error e => Except.error e
  | Except.ok fallback =>
    if icon.styles.contains style then
      Except.ok (some (cmdFormat cmdname ((FONTS style).getD "") name))
    else
      match fallback with
      | some f =>
        if icon.styles.contains f then
          Except.ok (some (cmdFormat cmdname ((FONTS f).getD "") name))
        else
          Except.ok none
      | none => Except.ok none

/-- `icon_list = sorted(icons.keys())` (source line 194): the icon names in
lexicographic order. -/
def sortedKeys (names : List String) : List String :=
  List.insertionSort (fun a b : String => a ≤ b) names

/-- The `mappings` list of `main` (source lines 197-198): one `make_map`
statement per icon, in sorted name order.  The icon set is modelled as its
list of keys `names` together with the lookup function `icons`. -/
def mappings (icons : String → IconRecord) (names : List String) : List String :=
  (sortedKeys names).map fun name => make_map name (icons name).unicode

/-- Result of one `make_cmd` call as seen by the list comprehensions of
`main`: there the style argument is always one of the three literal style
tags, for which `make_cmd` never raises, so the `error` branch is
unreachable (proved in `make_cmd_eq_resolve`). -/
def okOrNone : Except String (Option String) → Option String
  | Except.ok c => c
  | Except.error _ => none

/-- The truthiness filter `[cmd for cmd in cmds if cmd]` of source lines
206-208: `None` and the empty string are falsy in Python, every other
string is truthy. -/
def truthyFilter (cmds : List (Option String)) : List String :=
  cmds.filterMap fun c =>
    match c with
    | some s => if s = "" then none else some s
    | none => none

/-- One per-style command list of `main` (source lines 199-208): `make_cmd`
applied to every icon in sorted name order, then the truthiness filter. -/
def cmdList (icons : String → IconRecord) (names : List String) (style : String) :
    List String :=
  truthyFilter ((sortedKeys names).map fun name => okOrNone (make_cmd name (icons name) style))

/-- The closed StyleTarget enumeration of the spec: the three style tags. -/
def styleTargets : List String := ["regular", "solid", "brands"]

/-- From the spec's words (FallbackRule): the static total function
`solid -> regular`, `regular -> solid`, `brands -> none`. -/
def fallbackRule (style : String) : Option String :=
  if style = "solid" then some "regular"
  else if style = "regular" then some "solid"
  else none

/-- From the spec's words (Command Generator, steps 2-4): the resolved font
family for a target style against an icon's style set, if any: the family
bound to the target when the target is a member, otherwise the family bound
to the fallback when it exists and is a member, otherwise nothing. -/
def resolveFontSpec (target : String) (styles : List String) : Option String :=
  if styles.contains target then FONTS target
  else
    match fallbackRule target with
    | some f => if styles.contains f then FONTS f else none
    | none => none

/-- From the spec's words (Name Normalizer algorithm): left-to-right scan
with a capitalize-next flag; a hyphen sets the flag and emits nothing, any
other character is emitted uppercased when the flag is set, then the flag
is cleared. -/
def normStep : List Char → Bool → List Char
  | [], _ => []
  | c :: cs, upper =>
    if c = '-' then
      normStep cs true
    else
      (if upper then c.toUpper else c) :: normStep cs false

/-- From the spec's words: the Name Normalizer as the flag scan started
with the flag set (so the first character is always capitalized). -/
def normalizeSpec (name : String) : String :=
  String.mk (normStep name.data true)

/-- From the spec's words: the hyphen-separated segments of an icon name.
`segmentsSpec l` is never empty; the empty name has the single empty
segment. -/
def segmentsSpec : List Char → List (List Char)
  | [] => [[]]
  | c :: cs =>
    if c = '-' then
      [] :: segmentsSpec cs
    else
      match segmentsSpec cs with
      | [] => [[c]]
      | s :: ss => (c :: s) :: ss

/-- From the spec's words: capitalize a segment, that is uppercase its
first character. -/
def capSpec : List Char → List Char
  | [] => []
  | c :: cs => c.toUpper :: cs

/-- From the spec's words: upper-camel-case of a hyphenated name, the
concatenation of its capitalized segments with the hyphens removed. -/
def upperCamelSpec (l : List Char) : List Char :=
  ((segmentsSpec l).map capSpec).flatten

/-- Concatenation of a segment list in which only the tail segments are
capitalized; describes the flag scan started with a cleared flag. -/
def camelTailSpec : List (List Char) → List Char
  | [] => []
  | s :: ss => s ++ ((ss.map capSpec).flatten)

/-- From the spec's words (External interfaces): the mapping statement
grammar as the spec claims it, with the code point converted to uppercase
and a closing double-quote before the final braces.  The code emits no
such closing quote, so this grammar differs from `make_map`. -/
def mapStmtSpec (name codepoint : String) : String :=
  "\\expandafter\\def\\csname faicon@" ++ name ++ "\\endcsname\x7b\\symbol\x7b\"" ++
    String.mk (codepoint.data.map Char.toUpper) ++ "\"\x7d\x7d"

/-- From the spec's words as amended by the counterexample: the mapping
statement grammar actually emitted, with the code point converted to
uppercase and no closing double-quote before the final braces. -/
def mapStmtAmended (name codepoint : String) : String :=
  "\\expandafter\\def\\csname faicon@" ++ name ++ "\\endcsname\x7b\\symbol\x7b\"" ++
    String.mk (codepoint.data.map Char.toUpper) ++ "\x7d\x7d"

deriving instance DecidableEq for Except

/-- Numeric characterization of `Char.isLower`. -/
theorem toNat_of_isLower {c : Char} (h : c.isLower = true) :
    97 ≤ c.toNat ∧ c.toNat ≤ 122 := by
  simpa [Char.isLower, UInt32.le_def, BitVec.le_def, Char.toNat, UInt32.toNat] using h

/-- Numeric characterization of `Char.isDigit`. -/
theorem toNat_of_isDigit {c : Char} (h : c.isDigit = true) :
    48 ≤ c.toNat ∧ c.toNat ≤ 57 := by
  simpa [Char.isDigit, UInt32.le_def, BitVec.le_def, Char.toNat, UInt32.toNat] using h

/-- Numeric characterization of `Char.isUpper`. -/
theorem toNat_of_isUpper {c : Char} (h : c.isUpper = true) :
    65 ≤ c.toNat ∧ c.toNat ≤ 90 := by
  simpa [Char.isUpper, UInt32.le_def, BitVec.le_def, Char.toNat, UInt32.toNat] using h

/-- A character whose code point lies in one of the three alphanumeric
ASCII ranges is alphanumeric. -/
theorem isAlphanum_of_toNat {c : Char}
    (h : (65 ≤ c.toNat ∧ c.toNat ≤ 90) ∨ (97 ≤ c.toNat ∧ c.toNat ≤ 122) ∨
      (48 ≤ c.toNat ∧ c.toNat ≤ 57)) : c.isAlphanum = true := by
  simp only [Char.isAlphanum, Char.isAlpha, Char.isUpper, Char.isLower, Char.isDigit,
    Bool.or_eq_true, Bool.and_eq_true, decide_eq_true_eq, UInt32.le_def, BitVec.le_def]
  rcases h with h | h | h
  · exact Or.inl (Or.inl ⟨h.1, h.2⟩)
  · exact Or.inl (Or.inr ⟨h.1, h.2⟩)
  · exact Or.inr ⟨h.1, h.2⟩

/-- A character whose code point is not 45 is not a hyphen. -/
theorem ne_hyphen_of_toNat {c : Char} (h : c.toNat ≠ 45) : c ≠ '-' := by
  intro hc
  subst hc
  exact h rfl

/-- `Char.ofNat` of a valid code point has that code point. -/
theorem toNat_charOfNat {n : Nat} (h : n.isValidChar) : (Char.ofNat n).toNat = n := by
  rw [Char.ofNat, dif_pos h]
  rfl

/-- On a lowercase ASCII letter, `Char.toUpper` subtracts 32 from the code
point. -/
theorem toNat_toUpper_of_lower {c : Char} (h : 97 ≤ c.toNat ∧ c.toNat ≤ 122) :
    (c.toUpper).toNat = c.toNat - 32 := by
  rw [Char.toUpper, if_pos h]
  exact toNat_charOfNat (Or.inl (by omega))

/-- Off the lowercase ASCII range, `Char.toUpper` is the identity. -/
theorem toUpper_of_not_lower {c : Char} (h : ¬(97 ≤ c.toNat ∧ c.toNat ≤ 122)) :
    c.toUpper = c := by
  rw [Char.toUpper, if_neg h]

/-- Uppercasing a lowercase letter or digit yields an alphanumeric
character that is not a hyphen. -/
theorem toUpper_alphanum {c : Char} (h : c.isLower = true ∨ c.isDigit = true) :
    (c.toUpper).isAlphanum = true ∧ c.toUpper ≠ '-' := by
  rcases h with h | h
  · have hb := toNat_of_isLower h
    have ht := toNat_toUpper_of_lower hb
    constructor
    · exact isAlphanum_of_toNat (Or.inl (by omega))
    · exact ne_hyphen_of_toNat (by omega)
  · have hb := toNat_of_isDigit h
    have ht : c.toUpper = c := toUpper_of_not_lower (by omega)
    rw [ht]
    constructor
    · exact isAlphanum_of_toNat (Or.inr (Or.inr hb))
    · exact ne_hyphen_of_toNat (by omega)

/-- A lowercase letter or digit is alphanumeric and not a hyphen. -/
theorem isAlphanum_of_lower_or_digit {c : Char} (h : c.isLower = true ∨ c.isDigit = true) :
    c.isAlphanum = true ∧ c ≠ '-' := by
  rcases h with h | h
  · have hb := toNat_of_isLower h
    exact ⟨isAlphanum_of_toNat (Or.inr (Or.inl hb)), ne_hyphen_of_toNat (by omega)⟩
  · have hb := toNat_of_isDigit h
    exact ⟨isAlphanum_of_toNat (Or.inr (Or.inr hb)), ne_hyphen_of_toNat (by omega)⟩

/-- Digits and uppercase letters are fixed by `Char.toUpper`. -/
theorem toUpper_of_digit_or_upper {c : Char} (h : c.isDigit = true ∨ c.isUpper = true) :
    c.toUpper = c := by
  rcases h with h | h
  · exact toUpper_of_not_lower (by have := toNat_of_isDigit h; omega)
  · exact toUpper_of_not_lower (by have := toNat_of_isUpper h; omega)

/-- At a positive position the index argument of the `make_cmdname` loop is
irrelevant: the loop body coincides with the flag scan of the spec. -/
theorem cmdnameStep_pos (cs : List Char) (i : Nat) (b : Bool) :
    cmdnameStep cs (i + 1) b = normStep cs b := by
  induction cs generalizing i b with
  | nil => rfl
  | cons c cs ih =>
    by_cases hc : c = '-'
    · simp [cmdnameStep, normStep, hc, ih]
    · simp [cmdnameStep, normStep, hc, ih]

/-- The `make_cmdname` loop started at position 0 with a cleared flag is
the spec's flag scan started with the flag set. -/
theorem cmdnameStep_zero (l : List Char) : cmdnameStep l 0 false = normStep l true := by
  cases l with
  | nil => rfl
  | cons c cs =>
    by_cases hc : c = '-'
    · simp [cmdnameStep, normStep, hc, cmdnameStep_pos cs 0]
    · simp [cmdnameStep, normStep, hc, cmdnameStep_pos cs 0]

/-- `make_cmdname` computes the spec's flag scan with the flag initially
set. -/
theorem make_cmdname_eq_normStep (name : String) :
    make_cmdname name = String.mk (normStep name.data true) := by
  rw [make_cmdname, cmdnameStep_zero]

/-- Characters emitted by the flag scan on an input of lowercase letters,
digits and hyphens are alphanumeric and never hyphens. -/
theorem normStep_chars (l : List Char)
    (h : ∀ c ∈ l, c.isLower = true ∨ c.isDigit = true ∨ c = '-') (b : Bool) :
    ∀ c ∈ normStep l b, c.isAlphanum = true ∧ c ≠ '-' := by
  induction l generalizing b with
  | nil => intro c hc; simp [normStep] at hc
  | cons a l ih =>
    intro c hc
    have hl : ∀ x ∈ l, x.isLower = true ∨ x.isDigit = true ∨ x = '-' :=
      fun x hx => h x (by simp [hx])
    by_cases hah : a = '-'
    · rw [normStep, if_pos hah] at hc
      exact ih hl true c hc
    · rw [normStep, if_neg hah] at hc
      have ha : a.isLower = true ∨ a.isDigit = true := by
        rcases h a (by simp) with h1 | h1 | h1
        · exact Or.inl h1
        · exact Or.inr h1
        · exact absurd h1 hah
      rcases List.mem_cons.mp hc with rfl | hc
      · cases b
        · simpa using isAlphanum_of_lower_or_digit ha
        · simpa using toUpper_alphanum ha
      · exact ih hl false c hc

/-- The segment list of a name is never empty. -/
theorem segmentsSpec_ne_nil (l : List Char) : segmentsSpec l ≠ [] := by
  cases l with
  | nil => simp [segmentsSpec]
  | cons c cs =>
    by_cases hc : c = '-'
    · simp [segmentsSpec, hc]
    · cases hsc : segmentsSpec cs <;> simp [segmentsSpec, hc, hsc]

/-- The flag scan computes the segment-wise capitalization: with the flag
set it capitalizes every segment, with the flag cleared it leaves the first
segment untouched. -/
theorem normStep_camel (l : List Char) :
    normStep l true = upperCamelSpec l ∧
    normStep l false = camelTailSpec (segmentsSpec l) := by
  induction l with
  | nil => exact ⟨rfl, rfl⟩
  | cons c cs ih =>
    by_cases hc : c = '-'
    · subst hc
      constructor
      · rw [normStep, if_pos rfl, ih.1]
        simp [upperCamelSpec, segmentsSpec, capSpec]
      · rw [normStep, if_pos rfl, ih.1]
        simp [upperCamelSpec, segmentsSpec, camelTailSpec, capSpec]
    · obtain ⟨s, ss, hss⟩ : ∃ s ss, segmentsSpec cs = s :: ss := by
        cases hsc : segmentsSpec cs with
        | nil => exact absurd hsc (segmentsSpec_ne_nil cs)
        | cons s ss => exact ⟨s, ss, rfl⟩
      constructor
      · rw [normStep, if_neg hc, ih.2, hss]
        simp [upperCamelSpec, segmentsSpec, hc, hss, capSpec, camelTailSpec]
      · rw [normStep, if_neg hc, ih.2, hss]
        simp [segmentsSpec, hc, hss, camelTailSpec, capSpec]

/-- For each of the three enumerated styles, `make_cmd` succeeds and its
payload is the spec's resolution rule applied to the icon's styles,
formatted by the command template. -/
theorem make_cmd_eq_resolve (name : String) (icon : IconRecord) {style : String}
    (h : style ∈ styleTargets) :
    make_cmd name icon style =
      Except.ok ((resolveFontSpec style icon.styles).map
        fun font => cmdFormat (make_cmdname name) font name) := by
  simp only [styleTargets, List.mem_cons, List.not_mem_nil, or_false] at h
  rcases h with rfl | rfl | rfl
  · by_cases h1 : "regular" ∈ icon.styles <;> by_cases h2 : "solid" ∈ icon.styles <;>
      simp [make_cmd, resolveFontSpec, fallbackRule, FONTS, h1, h2]
  · by_cases h1 : "solid" ∈ icon.styles <;> by_cases h2 : "regular" ∈ icon.styles <;>
      simp [make_cmd, resolveFontSpec, fallbackRule, FONTS, h1, h2]
  · by_cases h1 : "brands" ∈ icon.styles <;>
      simp [make_cmd, resolveFontSpec, fallbackRule, FONTS, h1]

/-- For a style outside the enumeration, `make_cmd` raises the
`Invalid style` error. -/
theorem make_cmd_invalid_style (name : String) (icon : IconRecord) {style : String}
    (h : style ∉ styleTargets) :
    make_cmd name icon style = Except.error ("Invalid style: " ++ style) := by
  simp only [styleTargets, List.mem_cons, List.not_mem_nil, or_false, not_or] at h
  obtain ⟨h1, h2, h3⟩ := h
  simp [make_cmd, h1, h2, h3]

/-- The command template output, written as the fixed leading text followed
by a remainder. -/
theorem cmdFormat_eq_append (cmdname font name : String) :
    ∃ r, cmdFormat cmdname font name = "\\def\\fa" ++ r := by
  refine ⟨cmdname ++ ("\x7b\x7b\\" ++ (font ++ ("\\csname faicon@" ++
    (name ++ "\\endcsname\x7d\x7d")))), ?_⟩
  simp [cmdFormat, String.append_assoc]

/-- A string that starts with the command template's leading text is not
empty. -/
theorem defFa_append_ne_empty (r : String) : "\\def\\fa" ++ r ≠ "" := by
  intro hcon
  have h2 := congrArg String.data hcon
  rw [String.data_append] at h2
  have h3 : ("\\def\\fa" : String).data = [] := (List.append_eq_nil.mp h2).1
  exact absurd h3 (by decide)

/-- The command template never produces the empty string. -/
theorem cmdFormat_ne_empty (cmdname font name : String) : cmdFormat cmdname font name ≠ "" := by
  obtain ⟨r, hr⟩ := cmdFormat_eq_append cmdname font name
  rw [hr]
  exact defFa_append_ne_empty r

/-- For an enumerated style, the spec resolution finds a font exactly when
the icon has the target style or the target's fallback style. -/
theorem resolveFontSpec_isSome {target : String} (h : target ∈ styleTargets)
    (styles : List String) :
    (resolveFontSpec target styles).isSome =
      (styles.contains target || (fallbackRule target).any fun f => styles.contains f) := by
  simp only [styleTargets, List.mem_cons, List.not_mem_nil, or_false] at h
  rcases h with rfl | rfl | rfl
  · by_cases h1 : "regular" ∈ styles <;> by_cases h2 : "solid" ∈ styles <;>
      simp [resolveFontSpec, fallbackRule, FONTS, h1, h2]
  · by_cases h1 : "solid" ∈ styles <;> by_cases h2 : "regular" ∈ styles <;>
      simp [resolveFontSpec, fallbackRule, FONTS, h1, h2]
  · by_cases h1 : "brands" ∈ styles <;> simp [resolveFontSpec, fallbackRule, FONTS, h1]

/-- The truthiness filter over a list of produced options is the plain
`filterMap` when no produced string is empty. -/
theorem truthyFilter_map (g : String → Option String) (l : List String)
    (hg : ∀ n s, g n = some s → s ≠ "") :
    truthyFilter (l.map g) = l.filterMap g := by
  induction l with
  | nil => rfl
  | cons a l ih =>
    rcases hga : g a with _ | s
    · simp only [truthyFilter, List.map_cons, List.filterMap_cons, hga] at ih ⊢
      exact ih
    · have hs : s ≠ "" := hg a s hga
      simp only [truthyFilter, List.map_cons, List.filterMap_cons, hga, if_neg hs] at ih ⊢
      rw [ih]

/-- Counting `filterMap` survivors by the predicate that says whether the
produced option is present. -/
theorem length_filterMap_eq_length_filter (g : String → Option String) (p : String → Bool)
    (l : List String) (hp : ∀ n, (g n).isSome = p n) :
    (l.filterMap g).length = (l.filter p).length := by
  induction l with
  | nil => rfl
  | cons a l ih =>
    rcases hga : g a with _ | s
    · have hpa : p a = false := by rw [← hp a, hga]; rfl
      simp [List.filterMap_cons, List.filter_cons, hga, hpa, ih]
    · have hpa : p a = true := by rw [← hp a, hga]; rfl
      simp [List.filterMap_cons, List.filter_cons, hga, hpa, ih]

/-- The sorted key list is a permutation of the input keys. -/
theorem sortedKeys_perm (names : List String) : (sortedKeys names).Perm names :=
  List.perm_insertionSort _ names

/-- The sorted key list is sorted lexicographically. -/
theorem sortedKeys_sorted (names : List String) :
    List.Sorted (fun a b : String => a ≤ b) (sortedKeys names) :=
  List.sorted_insertionSort _ names

/-- Sorting identifies key lists that are permutations of one another. -/
theorem sortedKeys_eq_of_perm {names1 names2 : List String} (h : names1.Perm names2) :
    sortedKeys names1 = sortedKeys names2 :=
  List.eq_of_perm_of_sorted
    ((sortedKeys_perm names1).trans (h.trans (sortedKeys_perm names2).symm))
    (sortedKeys_sorted names1) (sortedKeys_sorted names2)

/-- `make_cmd` through the eyes of `main`, for an enumerated style. -/
theorem okOrNone_make_cmd (name : String) (icon : IconRecord) {style : String}
    (h : style ∈ styleTargets) :
    okOrNone (make_cmd name icon style) =
      (resolveFontSpec style icon.styles).map
        fun font => cmdFormat (make_cmdname name) font name := by
  rw [make_cmd_eq_resolve name icon h]
  rfl

/-- For an enumerated style, the truthiness filter of `main` drops exactly
the `None` results of `make_cmd`. -/
theorem cmdList_eq_filterMap (icons : String → IconRecord) (names : List String)
    {style : String} (h : style ∈ styleTargets) :
    cmdList icons names style =
      (sortedKeys names).filterMap fun n => okOrNone (make_cmd n (icons n) style) := by
  rw [cmdList]
  apply truthyFilter_map
  intro n s hs
  rw [okOrNone_make_cmd n (icons n) h] at hs
  rcases hr : resolveFontSpec style (icons n).styles with _ | font
  · rw [hr] at hs
    simp at hs
  · rw [hr] at hs
    simp only [Option.map_some', Option.some.injEq] at hs
    rw [← hs]
    exact cmdFormat_ne_empty (make_cmdname n) font n

/-- The length of a per-style command list is the number of icons having
the target style or its fallback style. -/
theorem cmdList_length (icons : String → IconRecord) (names : List String)
    {style : String} (h : style ∈ styleTargets) :
    (cmdList icons names style).length =
      (names.filter fun n =>
        (icons n).styles.contains style ||
          (fallbackRule style).any fun f => (icons n).styles.contains f).length := by
  rw [cmdList_eq_filterMap icons names h]
  rw [length_filterMap_eq_length_filter _
    (fun n => (icons n).styles.contains style ||
      (fallbackRule style).any fun f => (icons n).styles.contains f)]
  · exact ((sortedKeys_perm names).filter _).length_eq
  · intro n
    rw [okOrNone_make_cmd n (icons n) h]
    rw [← resolveFontSpec_isSome h (icons n).styles]
    cases resolveFontSpec style (icons n).styles <;> rfl

/-- A non-empty run of hyphens leaves the flag scan in the same state as a
single hyphen: remaining input is scanned with the flag set. -/
theorem normStep_replicate (k : Nat) (t : List Char) (b : Bool) :
    normStep (List.replicate (k + 1) '-' ++ t) b = normStep t true := by
  induction k generalizing b with
  | zero => simp [normStep]
  | succ k ih =>
    rw [List.replicate_succ, List.cons_append, normStep, if_pos rfl]
    exact ih true

/-- Collapsing a run of hyphens to a single hyphen does not change the
output of the flag scan. -/
theorem normStep_collapse (s : List Char) (k : Nat) (t : List Char) (b : Bool) :
    normStep (s ++ List.replicate (k + 1) '-' ++ t) b = normStep (s ++ '-' :: t) b := by
  induction s generalizing b with
  | nil =>
    simp only [List.nil_append]
    rw [normStep_replicate, normStep, if_pos rfl]
  | cons c s ih =>
    by_cases hc : c = '-'
    · simp only [List.cons_append, normStep, if_pos hc]
      exact ih true
    · simp only [List.cons_append, normStep, if_neg hc]
      exact congrArg _ (ih false)

/-- The two-icon example icon set of the spec's testable properties:
`face-smile` (solid only) and `github` (brands only). -/
def iconsExample : String → IconRecord := fun n =>
  if n = "face-smile" then ⟨"f118", ["solid"]⟩ else ⟨"f09b", ["brands"]⟩

/-- The keys of the example icon set, in a non-lexicographic insertion
order. -/
def namesExample : List String := ["github", "face-smile"]

/-- C1: For every icon record and every target style among regular, solid
and brands, `make_cmd` resolves the font family per the spec's fallback
rule: the target's own family when the target is in the icon's styles,
else the family of the target's fallback when that fallback exists and is
in the icon's styles, else no output.  In particular an icon with styles
`["solid"]` resolves target regular via fallback to the solid family and
succeeds, and target brands yields no output. -/
theorem C1_fallback_resolution (name : String) (icon : IconRecord) (target : String)
    (h : target ∈ styleTargets) :
    make_cmd name icon target =
      Except.ok ((resolveFontSpec target icon.styles).map
        fun font => cmdFormat (make_cmdname name) font name) ∧
    (icon.styles = ["solid"] →
      make_cmd name icon "regular" =
        Except.ok (some (cmdFormat (make_cmdname name) "FontAwesomeSolid" name)) ∧
      make_cmd name icon "brands" = Except.ok none) := by
  refine ⟨make_cmd_eq_resolve name icon h, fun hs => ⟨?_, ?_⟩⟩
  · rw [make_cmd_eq_resolve name icon (by simp [styleTargets])]
    simp [resolveFontSpec, fallbackRule, FONTS, hs]
  · rw [make_cmd_eq_resolve name icon (by simp [styleTargets])]
    simp [resolveFontSpec, fallbackRule, FONTS, hs]

/-- Witness for C1 at the icon `face-smile` with styles `["solid"]`. -/
theorem C1_witness :
    make_cmd "face-smile" ⟨"f118", ["solid"]⟩ "regular" =
      Except.ok (some (cmdFormat (make_cmdname "face-smile") "FontAwesomeSolid" "face-smile")) ∧
    make_cmd "face-smile" ⟨"f118", ["solid"]⟩ "brands" = Except.ok none :=
  (C1_fallback_resolution "face-smile" ⟨"f118", ["solid"]⟩ "regular" (by decide)).2 rfl

/-- C2: The mapping list has exactly one entry per icon; each per-style
command list is at most as long as the icon count and counts exactly the
icons having the target style or the target's fallback style; for brands,
whose fallback is absent, it counts exactly the icons having the brands
style. -/
theorem C2_list_lengths (icons : String → IconRecord) (names : List String)
    (target : String) (h : target ∈ styleTargets) :
    (mappings icons names).length = names.length ∧
    (cmdList icons names target).length ≤ names.length ∧
    (cmdList icons names target).length =
      (names.filter fun n =>
        (icons n).styles.contains target ||
          (fallbackRule target).any fun f => (icons n).styles.contains f).length ∧
    (cmdList icons names "brands").length =
      (names.filter fun n => (icons n).styles.contains "brands").length := by
  have hmap : (mappings icons names).length = names.length := by
    rw [mappings, List.length_map]
    exact (sortedKeys_perm names).length_eq
  have hlen := cmdList_length icons names h
  have hbr := cmdList_length icons names (show "brands" ∈ styleTargets by simp [styleTargets])
  refine ⟨hmap, ?_, hlen, ?_⟩
  · rw [hlen]
    exact List.length_filter_le _ names
  · rw [hbr]
    congr 1
    apply List.filter_congr
    intro n _
    simp [fallbackRule]

/-- Witness for C2 at the two-icon example set. -/
theorem C2_witness :
    (mappings iconsExample namesExample).length = 2 ∧
    (cmdList iconsExample namesExample "regular").length = 1 ∧
    (cmdList iconsExample namesExample "brands").length = 1 := by
  have h := C2_list_lengths iconsExample namesExample "regular" (by decide)
  exact ⟨h.1.trans (by decide), h.2.2.1.trans (by decide), h.2.2.2.trans (by decide)⟩

/-- C3: Whenever `make_cmd` produces output, the statement is exactly the
command template filled with the normalized command name, the icon name
and the font family bound to the resolved style (the target itself if the
icon has it, otherwise the target's fallback); no other font family can
appear. -/
theorem C3_statement_grammar (name : String) (icon : IconRecord) (style s : String)
    (h : make_cmd name icon style = Except.ok (some s)) :
    ∃ rstyle font, FONTS rstyle = some font ∧
      ((rstyle = style ∧ rstyle ∈ icon.styles) ∨
        (fallbackRule style = some rstyle ∧ style ∉ icon.styles ∧ rstyle ∈ icon.styles)) ∧
      s = cmdFormat (make_cmdname name) font name := by
  by_cases hv : style ∈ styleTargets
  · rw [make_cmd_eq_resolve name icon hv] at h
    simp only [Except.ok.injEq] at h
    simp only [styleTargets, List.mem_cons, List.not_mem_nil, or_false] at hv
    rcases hv with rfl | rfl | rfl
    · by_cases h1 : "regular" ∈ icon.styles
      · simp [resolveFontSpec, fallbackRule, FONTS, h1] at h
        exact ⟨"regular", "FontAwesomeRegular", by simp [FONTS], Or.inl ⟨rfl, h1⟩, h.symm⟩
      · by_cases h2 : "solid" ∈ icon.styles
        · simp [resolveFontSpec, fallbackRule, FONTS, h1, h2] at h
          exact ⟨"solid", "FontAwesomeSolid", by simp [FONTS],
            Or.inr ⟨by simp [fallbackRule], h1, h2⟩, h.symm⟩
        · simp [resolveFontSpec, fallbackRule, FONTS, h1, h2] at h
    · by_cases h1 : "solid" ∈ icon.styles
      · simp [resolveFontSpec, fallbackRule, FONTS, h1] at h
        exact ⟨"solid", "FontAwesomeSolid", by simp [FONTS], Or.inl ⟨rfl, h1⟩, h.symm⟩
      · by_cases h2 : "regular" ∈ icon.styles
        · simp [resolveFontSpec, fallbackRule, FONTS, h1, h2] at h
          exact ⟨"regular", "FontAwesomeRegular", by simp [FONTS],
            Or.inr ⟨by simp [fallbackRule], h1, h2⟩, h.symm⟩
        · simp [resolveFontSpec, fallbackRule, FONTS, h1, h2] at h
    · by_cases h1 : "brands" ∈ icon.styles
      · simp [resolveFontSpec, fallbackRule, FONTS, h1] at h
        exact ⟨"brands", "FontAwesomeBrands", by simp [FONTS], Or.inl ⟨rfl, h1⟩, h.symm⟩
      · simp [resolveFontSpec, fallbackRule, FONTS, h1] at h
  · rw [make_cmd_invalid_style name icon hv] at h
    simp at h

/-- Witness for C3 at the icon `face-smile` generated for target regular. -/
theorem C3_witness :
    ∃ rstyle font, FONTS rstyle = some font ∧
      ((rstyle = "regular" ∧ rstyle ∈ (IconRecord.mk "f118" ["solid"]).styles) ∨
        (fallbackRule "regular" = some rstyle ∧
          "regular" ∉ (IconRecord.mk "f118" ["solid"]).styles ∧
          rstyle ∈ (IconRecord.mk "f118" ["solid"]).styles)) ∧
      cmdFormat (make_cmdname "face-smile") "FontAwesomeSolid" "face-smile" =
        cmdFormat (make_cmdname "face-smile") font "face-smile" :=
  C3_statement_grammar "face-smile" ⟨"f118", ["solid"]⟩ "regular"
    (cmdFormat (make_cmdname "face-smile") "FontAwesomeSolid" "face-smile") (by decide)

/-- Counterexample to C4 as stated: the statement `make_map` emits for the
icon `github` with code point `f09b` ends in `F09B}}` with no closing
double-quote, so it is not of the spec's claimed exact form, which closes
the quote before the final braces. -/
theorem C4_counterexample :
    make_map "github" "f09b" =
      "\\expandafter\\def\\csname faicon@github\\endcsname\x7b\\symbol\x7b\"F09B\x7d\x7d" ∧
    make_map "github" "f09b" ≠ mapStmtSpec "github" "f09b" := by
  decide

/-- C4 (amended: the emitted statement has no closing double-quote before
the final braces): the mapping list contains exactly one statement per
icon, produced in lexicographic name order irrespective of style
membership, and each statement is the amended mapping grammar with the
code point uppercased (the sorted key list is a duplicate-free permutation
of the keys, sorted lexicographically, and the list maps each sorted key
to its statement). -/
theorem C4_mapping_statements (icons : String → IconRecord) (names : List String)
    (h : names.Nodup) :
    mappings icons names =
      (sortedKeys names).map (fun n => mapStmtAmended n (icons n).unicode) ∧
    (sortedKeys names).Perm names ∧ (sortedKeys names).Nodup ∧
    List.Sorted (fun a b : String => a ≤ b) (sortedKeys names) := by
  exact ⟨rfl, sortedKeys_perm names, ((sortedKeys_perm names).nodup_iff).mpr h,
    sortedKeys_sorted names⟩

/-- Witness for the amended C4 at the two-icon example set. -/
theorem C4_witness :
    mappings iconsExample namesExample =
      (sortedKeys namesExample).map (fun n => mapStmtAmended n (iconsExample n).unicode) ∧
    (sortedKeys namesExample).Perm namesExample ∧ (sortedKeys namesExample).Nodup ∧
    List.Sorted (fun a b : String => a ≤ b) (sortedKeys namesExample) :=
  C4_mapping_statements iconsExample namesExample (by decide)

/-- C5: On names made of lowercase letters, digits and hyphens, the output
of the Name Normalizer has no hyphens and only alphanumeric characters, it
equals the spec's flag-scan algorithm (first character and each character
following a removed hyphen uppercased) and, being a function of its input,
it is deterministic; the two examples of the spec hold. -/
theorem C5_normalizer (name : String)
    (h : ∀ c ∈ name.data, c.isLower = true ∨ c.isDigit = true ∨ c = '-') :
    (∀ c ∈ (make_cmdname name).data, c.isAlphanum = true ∧ c ≠ '-') ∧
    make_cmdname name = normalizeSpec name ∧
    make_cmdname "font-awesome" = "FontAwesome" ∧
    make_cmdname "github" = "Github" := by
  refine ⟨?_, make_cmdname_eq_normStep name, by decide, by decide⟩
  intro c hc
  rw [make_cmdname_eq_normStep] at hc
  exact normStep_chars name.data h true c hc

/-- Witness for C5 at the name `font-awesome`. -/
theorem C5_witness :
    (∀ c ∈ (make_cmdname "font-awesome").data, c.isAlphanum = true ∧ c ≠ '-') ∧
    make_cmdname "font-awesome" = normalizeSpec "font-awesome" ∧
    make_cmdname "font-awesome" = "FontAwesome" ∧
    make_cmdname "github" = "Github" :=
  C5_normalizer "font-awesome" (by decide)

/-- Counterexample to C6 as stated: `500px` is a single lowercase
alphanumeric segment, yet the normalized name `500px` contains the digit
`5`, which is not a letter, so the output does not contain only letters. -/
theorem C6_counterexample :
    (∀ c ∈ ("500px" : String).data, c.isLower = true ∨ c.isDigit = true ∨ c = '-') ∧
    make_cmdname "500px" = "500px" ∧
    '5' ∈ (make_cmdname "500px").data ∧ ('5').isAlpha = false := by
  decide

/-- C6 (amended: the output contains only letters and digits, not only
letters): on names made of lowercase alphanumeric segments joined by
hyphens, the Name Normalizer produces the upper-camel-case concatenation
of the capitalized segments, hyphens removed and the first segment
included, and its output characters are alphanumeric. -/
theorem C6_upper_camel (name : String)
    (h : ∀ c ∈ name.data, c.isLower = true ∨ c.isDigit = true ∨ c = '-') :
    make_cmdname name = String.mk (upperCamelSpec name.data) ∧
    ∀ c ∈ (make_cmdname name).data, c.isAlphanum = true := by
  constructor
  · rw [make_cmdname_eq_normStep]
    exact congrArg String.mk (normStep_camel name.data).1
  · intro c hc
    rw [make_cmdname_eq_normStep] at hc
    exact (normStep_chars name.data h true c hc).1

/-- Witness for the amended C6 at the name `font-awesome`. -/
theorem C6_witness :
    make_cmdname "font-awesome" = String.mk (upperCamelSpec ("font-awesome" : String).data) ∧
    ∀ c ∈ (make_cmdname "font-awesome").data, c.isAlphanum = true :=
  C6_upper_camel "font-awesome" (by decide)

/-- C7: The Name Normalizer maps the empty name to the empty string; a run
of consecutive hyphens behaves exactly like a single hyphen (one character
after the run uppercased, no hyphen emitted); digits and uppercase
characters pass through the loop unchanged while still clearing the
capitalize-next flag. -/
theorem C7_edge_cases :
    make_cmdname "" = "" ∧
    (∀ (s t : List Char) (k : Nat), 1 ≤ k →
      make_cmdname (String.mk (s ++ List.replicate k '-' ++ t)) =
        make_cmdname (String.mk (s ++ '-' :: t))) ∧
    (∀ (c : Char), c.isDigit = true ∨ c.isUpper = true →
      ∀ (i : Nat) (b : Bool) (cs : List Char),
        cmdnameStep (c :: cs) i b = c :: cmdnameStep cs (i + 1) false) := by
  refine ⟨rfl, ?_, ?_⟩
  · intro s t k hk
    obtain ⟨m, rfl⟩ : ∃ m, k = m + 1 := ⟨k - 1, by omega⟩
    rw [make_cmdname_eq_normStep, make_cmdname_eq_normStep]
    exact congrArg String.mk (normStep_collapse s m t true)
  · intro c hcu i b cs
    have hcne : c ≠ '-' := by
      rcases hcu with hd | hu
      · exact ne_hyphen_of_toNat (by have := toNat_of_isDigit hd; omega)
      · exact ne_hyphen_of_toNat (by have := toNat_of_isUpper hu; omega)
    have hfix := toUpper_of_digit_or_upper hcu
    cases hb : (if i = 0 then true else b) <;> simp [cmdnameStep, hcne, hb, hfix]

/-- Witness for C7: a double hyphen collapses like a single one, and a
digit passes through with the flag consumed. -/
theorem C7_witness :
    make_cmdname (String.mk (['a'] ++ List.replicate 2 '-' ++ ['b'])) =
      make_cmdname (String.mk (['a'] ++ '-' :: ['b'])) ∧
    cmdnameStep ['5', 'a'] 0 false = '5' :: cmdnameStep ['a'] (0 + 1) false :=
  ⟨C7_edge_cases.2.1 ['a'] ['b'] 2 (by decide),
    C7_edge_cases.2.2 '5' (Or.inl (by decide)) 0 false ['a']⟩

/-- C8: The generated mapping list and all three per-style command lists
are identical for any two key orders of the same icon set: iteration is
lexicographic by name, not insertion order. -/
theorem C8_order_independence (icons : String → IconRecord)
    (names1 names2 : List String) (h : names1.Perm names2) :
    mappings icons names1 = mappings icons names2 ∧
    ∀ style, cmdList icons names1 style = cmdList icons names2 style := by
  have hs := sortedKeys_eq_of_perm h
  exact ⟨by rw [mappings, mappings, hs], fun style => by rw [cmdList, cmdList, hs]⟩

/-- Witness for C8 at the two-icon example set with its two key orders. -/
theorem C8_witness :
    mappings iconsExample ["github", "face-smile"] =
      mappings iconsExample ["face-smile", "github"] ∧
    ∀ style, cmdList iconsExample ["github", "face-smile"] style =
      cmdList iconsExample ["face-smile", "github"] style :=
  C8_order_independence iconsExample ["github", "face-smile"] ["face-smile", "github"]
    (List.Perm.swap "face-smile" "github" [])

/-- C9: `make_cmd` fails, with the `Invalid style` error naming the style,
exactly when the target style is outside the three enumerated styles; for
the three enumerated styles it always returns a value, never an error. -/
theorem C9_invalid_style (name : String) (icon : IconRecord) (style : String) :
    (style ∉ styleTargets ↔
      make_cmd name icon style = Except.error ("Invalid style: " ++ style)) ∧
    (style ∈ styleTargets → ∃ c, make_cmd name icon style = Except.ok c) := by
  constructor
  · constructor
    · exact fun h => make_cmd_invalid_style name icon h
    · intro heq hin
      rw [make_cmd_eq_resolve name icon hin] at heq
      simp at heq
  · intro hin
    exact ⟨_, make_cmd_eq_resolve name icon hin⟩

/-- Witness for C9: the style `foo` raises, the style `solid` does not. -/
theorem C9_witness :
    make_cmd "github" ⟨"f09b", ["brands"]⟩ "foo" =
      Except.error ("Invalid style: " ++ "foo") ∧
    ∃ c, make_cmd "github" ⟨"f09b", ["brands"]⟩ "solid" = Except.ok c :=
  ⟨(C9_invalid_style "github" ⟨"f09b", ["brands"]⟩ "foo").1.mp (by decide),
    (C9_invalid_style "github" ⟨"f09b", ["brands"]⟩ "solid").2 (by decide)⟩

/-- C10: For an enumerated style, `make_cmd` yields either no output or a
non-empty statement starting with the command leading text, so the
truthiness filter of `main` drops exactly the no-output results; the
filtered per-style list is the order-preserving `filterMap` over the
lexicographically sorted keys. -/
theorem C10_truthiness_filter (icons : String → IconRecord) (names : List String)
    (name : String) (icon : IconRecord) (style : String) (h : style ∈ styleTargets) :
    (okOrNone (make_cmd name icon style) = none ∨
      ∃ s r, okOrNone (make_cmd name icon style) = some s ∧ s ≠ "" ∧
        s = "\\def\\fa" ++ r) ∧
    cmdList icons names style =
      (sortedKeys names).filterMap (fun n => okOrNone (make_cmd n (icons n) style)) ∧
    List.Sorted (fun a b : String => a ≤ b) (sortedKeys names) := by
  refine ⟨?_, cmdList_eq_filterMap icons names h, sortedKeys_sorted names⟩
  rw [okOrNone_make_cmd name icon h]
  cases hres : resolveFontSpec style icon.styles with
  | none => exact Or.inl rfl
  | some font =>
    right
    obtain ⟨r, hr⟩ := cmdFormat_eq_append (make_cmdname name) font name
    exact ⟨cmdFormat (make_cmdname name) font name, r, by rw [Option.map_some'],
      cmdFormat_ne_empty (make_cmdname name) font name, hr⟩

/-- Witness for C10 at the two-icon example set with target regular. -/
theorem C10_witness :
    (okOrNone (make_cmd "face-smile" ⟨"f118", ["solid"]⟩ "regular") = none ∨
      ∃ s r, okOrNone (make_cmd "face-smile" ⟨"f118", ["solid"]⟩ "regular") = some s ∧
        s ≠ "" ∧ s = "\\def\\fa" ++ r) ∧
    cmdList iconsExample namesExample "regular" =
      (sortedKeys namesExample).filterMap
        (fun n => okOrNone (make_cmd n (iconsExample n) "regular")) ∧
    List.Sorted (fun a b : String => a ≤ b) (sortedKeys namesExample) :=
  C10_truthiness_filter iconsExample namesExample "face-smile" ⟨"f118", ["solid"]⟩
    "regular" (by decide)
